import Mathlib

/-!
Verification of the de-identification and chunking pipeline
(`app/cli.py`, `app/core/chunk.py`, `app/core/anonymize.py`,
`app/core/io_utils.py`) against its design specification.

Texts are modelled as `List Char` (Python `str`).  External collaborators
(the regular-expression engine behind `PII_PATTERNS`, `hmac`/`hashlib`
digests, the PDF/Excel extraction adapters, `uuid.uuid4`, gzip) are taken
as explicit parameters of the embedded functions, constrained only by
hypotheses stating their documented contracts; everything that lives in
the repository is translated directly from the source.
-/

namespace Spec2Proof

/-! ### Python string primitives used by `chunk.py` -/

/-- The ASCII whitespace characters recognised by Python `str.strip` /
`str.isspace` (space, tab, newline, carriage return, vertical tab, form feed). -/
def isPySpace (c : Char) : Bool :=
  c == ' ' || c == '\t' || c == '\n' || c == '\r' || c == '\x0b' || c == '\x0c'

/-- Python `s.strip()`: drop leading and trailing whitespace. -/
def pyStrip (s : List Char) : List Char :=
  ((s.dropWhile isPySpace).reverse.dropWhile isPySpace).reverse

/-- Python `text.replace("\r\n", "\n")`: left-to-right, non-overlapping. -/
def replaceCRLF : List Char → List Char
  | [] => []
  | [c] => [c]
  | c :: d :: rest =>
    if c = '\r' ∧ d = '\n' then '\n' :: replaceCRLF rest
    else c :: replaceCRLF (d :: rest)

/-- Python `text.replace("\r", "\n")` applied after `replaceCRLF`:
line-ending normalisation of `chunk_text`. -/
def normalizeNewlines (s : List Char) : List Char :=
  (replaceCRLF s).map (fun c => if c = '\r' then '\n' else c)

/-- Prepend a character to the first part of a split result. -/
def consHead (c : Char) : List (List Char) → List (List Char)
  | [] => [[c]]
  | h :: t => (c :: h) :: t

/-- Python `text.split("\n\n")`: split on each non-overlapping occurrence of
a blank line, scanning left to right. -/
def splitOnBlank : List Char → List (List Char)
  | [] => [[]]
  | [c] => [[c]]
  | c :: d :: rest =>
    if c = '\n' ∧ d = '\n' then [] :: splitOnBlank rest
    else consHead c (splitOnBlank (d :: rest))

/-- Python `"\n\n".join(paragraphs)`. -/
def joinPar : List (List Char) → List Char
  | [] => []
  | [p] => p
  | p :: ps => p ++ '\n' :: '\n' :: joinPar ps

/-! ### `chunk.py` : `chunk_text` -/

/-- `[p.strip() for p in text.split("\n\n") if p.strip()]` after the
line-ending normalisation at the top of `chunk_text`. -/
def paragraphsOf (text : List Char) : List (List Char) :=
  ((splitOnBlank (normalizeNewlines text)).map pyStrip).filter (fun p => !p.isEmpty)

/-- The inner `flush()` generator of `chunk_text`: if the buffer is non-empty,
join it with blank lines, strip, and yield the result when non-empty. -/
def flushChunks (current : List (List Char)) : List (List Char) :=
  if current.isEmpty then []
  else
    let t := pyStrip (joinPar current)
    if t.isEmpty then [] else [t]

/-- The `while start < len(para)` hard-split loop of `chunk_text`, with an
explicit fuel argument to make the recursion structural (each iteration with
`1 ≤ maxChars` consumes at least one character, so `para.length` fuel is
always enough).  Returns the emitted chunks together with the
`(current, current_len)` buffer state after the loop (the buffer is flushed
just before the first emitted piece).  With `maxChars = 0` the Python loop
never advances `start` and diverges; the model returns no chunks there, and
every theorem below assumes `1 ≤ maxChars`. -/
def hardSplitFuel (maxChars : Nat) : Nat → List Char → List (List Char) → Nat →
    List (List Char) × List (List Char) × Nat
  | _, [], current, clen => ([], current, clen)
  | 0, _ :: _, current, clen => ([], current, clen)
  | fuel + 1, c :: cs, current, clen =>
    if maxChars = 0 then ([], current, clen)
    else
      let piece := (c :: cs).take maxChars
      let rest := (c :: cs).drop maxChars
      if (pyStrip piece).isEmpty then hardSplitFuel maxChars fuel rest current clen
      else
        let r := hardSplitFuel maxChars fuel rest [] 0
        (flushChunks current ++ piece :: r.1, r.2.1, r.2.2)

/-- The hard-split loop at its natural fuel. -/
def hardSplitGo (maxChars : Nat) (para : List Char) (current : List (List Char))
    (clen : Nat) : List (List Char) × List (List Char) × Nat :=
  hardSplitFuel maxChars para.length para current clen

/-- The `for para in paragraphs` loop of `chunk_text`, carrying the
`(current, current_len)` buffer, followed by the final flush. -/
def chunkLoop (maxChars : Nat) : List (List Char) → List (List Char) → Nat → List (List Char)
  | [], current, _ =>
    -- final flush: `if current: yield "\n\n".join(current).strip()`
    if current.isEmpty then [] else [pyStrip (joinPar current)]
  | para :: rest, current, clen =>
    if maxChars < para.length then
      let r := hardSplitGo maxChars para current clen
      r.1 ++ chunkLoop maxChars rest r.2.1 r.2.2
    else if maxChars < clen + para.length + (if current.isEmpty then 0 else 2) then
      flushChunks current ++ chunkLoop maxChars rest [para] para.length
    else
      chunkLoop maxChars rest (current ++ [para])
        (clen + para.length + (if clen = 0 then 0 else 2))

/-- `chunk_text(text, max_chars)` from `app/core/chunk.py`, as the list of
yielded chunks. -/
def chunk_text (text : List Char) (maxChars : Nat) : List (List Char) :=
  if text.isEmpty then []
  else chunkLoop maxChars (paragraphsOf text) [] 0

/-! ### Facts about the string primitives -/

theorem pyStrip_length_le (s : List Char) : (pyStrip s).length ≤ s.length := by
  have h1 : (s.dropWhile isPySpace).length ≤ s.length :=
    (List.dropWhile_suffix _).sublist.length_le
  have h2 : ((s.dropWhile isPySpace).reverse.dropWhile isPySpace).length ≤
      (s.dropWhile isPySpace).reverse.length :=
    (List.dropWhile_suffix _).sublist.length_le
  simpa [pyStrip] using le_trans (by simpa using h2) h1

theorem dropWhile_ne_nil_of_exists {p : Char → Bool} {s : List Char}
    (h : ∃ c ∈ s, p c = false) : s.dropWhile p ≠ [] := by
  intro hnil
  obtain ⟨c, hc, hpc⟩ := h
  have := (List.dropWhile_eq_nil_iff).mp hnil c hc
  simp [this] at hpc

theorem pyStrip_ne_nil {s : List Char} (h : ∃ c ∈ s, isPySpace c = false) :
    pyStrip s ≠ [] := by
  have h1 : s.dropWhile isPySpace ≠ [] := dropWhile_ne_nil_of_exists h
  have hhead := List.head_dropWhile_not isPySpace s h1
  have h2 : (s.dropWhile isPySpace).reverse.dropWhile isPySpace ≠ [] := by
    refine dropWhile_ne_nil_of_exists ⟨(s.dropWhile isPySpace).head h1, ?_, hhead⟩
    exact List.mem_reverse.mpr (List.head_mem h1)
  simpa [pyStrip] using h2

theorem pyStrip_pref_dropWhile (s : List Char) : pyStrip s <+: s.dropWhile isPySpace := by
  have hs : (pyStrip s).reverse <:+ (s.dropWhile isPySpace).reverse := by
    simpa [pyStrip] using @List.dropWhile_suffix Char ((s.dropWhile isPySpace).reverse) isPySpace
  exact List.reverse_suffix.mp hs

/-- The first character of a non-empty stripped string is not whitespace. -/
theorem pyStrip_head_not_space {s : List Char} (h : pyStrip s ≠ []) :
    isPySpace ((pyStrip s).head h) = false := by
  have hd : s.dropWhile isPySpace ≠ [] := by
    intro hnil
    have := pyStrip_pref_dropWhile s
    rw [hnil] at this
    exact h (List.prefix_nil.mp this)
  have := (pyStrip_pref_dropWhile s).head h
  rw [this]
  exact List.head_dropWhile_not isPySpace s hd

theorem pyStrip_eq_self {s : List Char} (h : ∀ c ∈ s, isPySpace c = false) :
    pyStrip s = s := by
  have drop_eq : ∀ t : List Char, (∀ c ∈ t, isPySpace c = false) →
      t.dropWhile isPySpace = t := by
    intro t ht
    cases t with
    | nil => rfl
    | cons a l =>
      rw [List.dropWhile_cons_of_neg]
      simp [ht a (by simp)]
  rw [pyStrip, drop_eq s h, drop_eq s.reverse (by intro c hc; exact h c (by simpa using hc)),
    List.reverse_reverse]

theorem replaceCRLF_eq_self {s : List Char} (h : '\r' ∉ s) : replaceCRLF s = s := by
  induction s using replaceCRLF.induct with
  | case1 => rfl
  | case2 c => rfl
  | case3 c d rest hcd ih =>
    exact absurd (by simp [hcd.1]) h
  | case4 c d rest hcd ih =>
    rw [replaceCRLF]
    rw [if_neg hcd, ih (by intro hm; exact h (by simp [hm]))]

theorem normalizeNewlines_eq_self {s : List Char} (h : '\r' ∉ s) :
    normalizeNewlines s = s := by
  rw [normalizeNewlines, replaceCRLF_eq_self h]
  have h2 : ∀ c ∈ s, (if c = '\r' then '\n' else c) = c := by
    intro c hc
    have : c ≠ '\r' := fun hcr => h (hcr ▸ hc)
    simp [this]
  calc (List.map (fun c => if c = '\r' then '\n' else c) s)
      = List.map id s := List.map_congr_left h2
    _ = s := List.map_id s

theorem splitOnBlank_eq_self {s : List Char} (h : '\n' ∉ s) :
    splitOnBlank s = [s] := by
  induction s using splitOnBlank.induct with
  | case1 => rfl
  | case2 c => rfl
  | case3 c d rest hcd ih => exact absurd (by simp [hcd.1]) h
  | case4 c d rest hcd ih =>
    rw [splitOnBlank, if_neg hcd, ih (by intro hm; exact h (by simp [hm]))]
    rfl

theorem consHead_ne_nil (c : Char) (l : List (List Char)) : consHead c l ≠ [] := by
  cases l <;> simp [consHead]

theorem splitOnBlank_ne_nil (s : List Char) : splitOnBlank s ≠ [] := by
  induction s using splitOnBlank.induct with
  | case1 => simp [splitOnBlank]
  | case2 c => simp [splitOnBlank]
  | case3 c d rest hcd ih => simp [splitOnBlank, if_pos hcd]
  | case4 c d rest hcd ih =>
    rw [splitOnBlank, if_neg hcd]
    exact consHead_ne_nil _ _

/-- Every non-separator character of the input lands in some part of
`splitOnBlank` (the characters of the `"\n\n"` separators themselves are
consumed by the split). -/
theorem mem_splitOnBlank {c : Char} {s : List Char} (hc : c ∈ s) (hne : c ≠ '\n') :
    ∃ p ∈ splitOnBlank s, c ∈ p := by
  induction s using splitOnBlank.induct with
  | case1 => simp at hc
  | case2 a => exact ⟨[a], by simp [splitOnBlank], by simpa using hc⟩
  | case3 a d rest had ih =>
    rw [splitOnBlank, if_pos had]
    rcases List.mem_cons.mp hc with h1 | hc'
    · exact absurd (h1.trans had.1) hne
    · rcases List.mem_cons.mp hc' with h2 | hc''
      · exact absurd (h2.trans had.2) hne
      · obtain ⟨p, hp, hcp⟩ := ih hc''
        exact ⟨p, by simp [hp], hcp⟩
  | case4 a d rest had ih =>
    rw [splitOnBlank, if_neg had]
    rcases List.mem_cons.mp hc with h1 | hc'
    · rcases hsp : splitOnBlank (d :: rest) with _ | ⟨hh, tt⟩
      · exact ⟨[a], by simp [consHead], by simp [h1]⟩
      · exact ⟨a :: hh, by simp [consHead], by simp [h1]⟩
    · obtain ⟨p, hp, hcp⟩ := ih hc'
      rcases hsp : splitOnBlank (d :: rest) with _ | ⟨hh, tt⟩
      · rw [hsp] at hp; simp at hp
      · rw [hsp] at hp
        rcases List.mem_cons.mp hp with h2 | hp'
        · exact ⟨a :: hh, by simp [consHead], by simp [h2 ▸ hcp]⟩
        · exact ⟨p, by simp [consHead, hp'], hcp⟩

/-! ### The buffer-length bookkeeping of `chunk_text` -/

theorem joinPar_cons_cons (p q : List Char) (ps : List (List Char)) :
    joinPar (p :: q :: ps) = p ++ '\n' :: '\n' :: joinPar (q :: ps) := rfl

theorem joinPar_append_singleton (xs : List (List Char)) (p : List Char) (h : xs ≠ []) :
    joinPar (xs ++ [p]) = joinPar xs ++ '\n' :: '\n' :: p := by
  induction xs with
  | nil => simp at h
  | cons x rest ih =>
    cases rest with
    | nil => simp [joinPar]
    | cons y t =>
      have hyt : (y :: t) ++ [p] = y :: (t ++ [p]) := by simp
      rw [List.cons_append, hyt, joinPar_cons_cons, ← hyt, ih (by simp), joinPar_cons_cons]
      simp

theorem joinPar_head_le_length (p : List Char) (ps : List (List Char)) :
    p.length ≤ (joinPar (p :: ps)).length := by
  cases ps with
  | nil => simp [joinPar]
  | cons q t => rw [joinPar_cons_cons]; simp

/-- The invariant maintained on the `(current, current_len)` buffer of
`chunk_text`: `current_len` is exactly the length of the blank-line-joined
buffer, it never exceeds `max_chars`, and buffered paragraphs are non-empty. -/
def bufInv (maxChars : Nat) (current : List (List Char)) (clen : Nat) : Prop :=
  clen ≤ maxChars ∧ (current = [] → clen = 0) ∧
    (current ≠ [] → clen = (joinPar current).length) ∧ (∀ p ∈ current, p ≠ [])

theorem bufInv_nil (maxChars : Nat) : bufInv maxChars [] 0 := by
  refine ⟨Nat.zero_le _, fun _ => rfl, fun h => absurd rfl h, by simp⟩

theorem bufInv_clen_pos {maxChars : Nat} {current : List (List Char)} {clen : Nat}
    (h : bufInv maxChars current clen) (hne : current ≠ []) : 0 < clen := by
  obtain ⟨-, -, h3, h4⟩ := h
  rw [h3 hne]
  cases current with
  | nil => exact absurd rfl hne
  | cons p ps =>
    have hp : p ≠ [] := h4 p (by simp)
    calc 0 < p.length := List.length_pos.mpr hp
      _ ≤ (joinPar (p :: ps)).length := joinPar_head_le_length p ps

/-- Everything yielded by the inner `flush()` has length at most `max_chars`
whenever the buffer invariant holds. -/
theorem flushChunks_bound {maxChars : Nat} {current : List (List Char)} {clen : Nat}
    (h : bufInv maxChars current clen) :
    ∀ c ∈ flushChunks current, c.length ≤ maxChars := by
  intro c hc
  rw [flushChunks] at hc
  by_cases hcur : current.isEmpty
  · simp [hcur] at hc
  · rw [if_neg hcur] at hc
    by_cases ht : (pyStrip (joinPar current)).isEmpty
    · simp [ht] at hc
    · rw [if_neg ht] at hc
      simp only [List.mem_singleton] at hc
      subst hc
      have hne : current ≠ [] := by simpa [List.isEmpty_iff] using hcur
      calc (pyStrip (joinPar current)).length ≤ (joinPar current).length :=
            pyStrip_length_le _
        _ = clen := (h.2.2.1 hne).symm
        _ ≤ maxChars := h.1

/-- Appending one paragraph to the buffer updates `current_len` to the exact
length of the new joined buffer (the source increments by
`len(para) + (2 if current_len > 0 else 0)`). -/
theorem bufInv_append {maxChars : Nat} {current : List (List Char)} {clen : Nat}
    (h : bufInv maxChars current clen) (para : List Char) (hp : para ≠ [])
    (hle : clen + para.length + (if clen = 0 then 0 else 2) ≤ maxChars) :
    bufInv maxChars (current ++ [para]) (clen + para.length + (if clen = 0 then 0 else 2)) := by
  obtain ⟨h1, h2, h3, h4⟩ := h
  refine ⟨hle, by simp, ?_, ?_⟩
  · intro _
    by_cases hcur : current = []
    · subst hcur
      simp [h2 rfl, joinPar]
    · have hpos : 0 < clen := bufInv_clen_pos ⟨h1, h2, h3, h4⟩ hcur
      rw [if_neg (Nat.pos_iff_ne_zero.mp hpos), joinPar_append_singleton current para hcur,
        h3 hcur]
      simp
      omega
  · intro p hmem
    rcases List.mem_append.mp hmem with hm | hm
    · exact h4 p hm
    · simpa using (List.mem_singleton.mp hm) ▸ hp

/-- Hard-split pieces are `take max_chars` slices, so they never exceed
`max_chars`; the buffer state coming out of the loop still satisfies the
invariant. -/
theorem hardSplitFuel_spec (maxChars : Nat) :
    ∀ fuel para current clen, bufInv maxChars current clen →
      (∀ c ∈ (hardSplitFuel maxChars fuel para current clen).1, c.length ≤ maxChars) ∧
      bufInv maxChars (hardSplitFuel maxChars fuel para current clen).2.1
        (hardSplitFuel maxChars fuel para current clen).2.2 := by
  intro fuel
  induction fuel with
  | zero =>
    intro para current clen h
    cases para with
    | nil => exact ⟨by simp [hardSplitFuel], by simpa [hardSplitFuel] using h⟩
    | cons c cs => exact ⟨by simp [hardSplitFuel], by simpa [hardSplitFuel] using h⟩
  | succ fuel ih =>
    intro para current clen h
    cases para with
    | nil => exact ⟨by simp [hardSplitFuel], by simpa [hardSplitFuel] using h⟩
    | cons c cs =>
      by_cases hm : maxChars = 0
      · exact ⟨by simp [hardSplitFuel, hm], by simpa [hardSplitFuel, hm] using h⟩
      · by_cases hp : (pyStrip ((c :: cs).take maxChars)).isEmpty
        · have hrec := ih ((c :: cs).drop maxChars) current clen h
          exact ⟨by intro x hx; exact hrec.1 x (by simpa [hardSplitFuel, hm, hp] using hx),
            by simpa [hardSplitFuel, hm, hp] using hrec.2⟩
        · have hrec := ih ((c :: cs).drop maxChars) [] 0 (bufInv_nil maxChars)
          constructor
          · intro x hx
            simp only [hardSplitFuel, if_neg hm, hp, Bool.false_eq_true, if_false,
              List.mem_append, List.mem_cons] at hx
            rcases hx with hx | hx | hx
            · exact flushChunks_bound h x hx
            · subst hx
              calc ((c :: cs).take maxChars).length
                  = min maxChars (c :: cs).length := by simp [List.length_take]
                _ ≤ maxChars := Nat.min_le_left _ _
            · exact hrec.1 x hx
          · simpa [hardSplitFuel, hm, hp] using hrec.2

theorem hardSplitGo_spec {maxChars : Nat} {para : List Char} {current : List (List Char)}
    {clen : Nat} (h : bufInv maxChars current clen) :
    (∀ c ∈ (hardSplitGo maxChars para current clen).1, c.length ≤ maxChars) ∧
    bufInv maxChars (hardSplitGo maxChars para current clen).2.1
      (hardSplitGo maxChars para current clen).2.2 :=
  hardSplitFuel_spec maxChars para.length para current clen h

/-- If its first character is not whitespace, a paragraph longer than
`max_chars` hard-splits into at least one piece. -/
theorem hardSplitGo_ne_nil {maxChars : Nat} (hm : 1 ≤ maxChars) {para : List Char}
    (hpar : para ≠ []) (hhead : isPySpace (para.head hpar) = false)
    (current : List (List Char)) (clen : Nat) :
    (hardSplitGo maxChars para current clen).1 ≠ [] := by
  cases para with
  | nil => exact absurd rfl hpar
  | cons c cs =>
    have hm0 : maxChars ≠ 0 := Nat.pos_iff_ne_zero.mp hm
    have hpiece : (c :: cs).take maxChars = c :: cs.take (maxChars - 1) :=
      List.take_cons hm
    have hcw : isPySpace c = false := hhead
    have hne : pyStrip ((c :: cs).take maxChars) ≠ [] := by
      refine pyStrip_ne_nil ⟨c, ?_, hcw⟩
      rw [hpiece]; simp
    have hnonempty : ¬ (pyStrip ((c :: cs).take maxChars)).isEmpty = true := by
      simpa [List.isEmpty_iff] using hne
    show (hardSplitFuel maxChars (c :: cs).length (c :: cs) current clen).1 ≠ []
    simp only [List.length_cons, hardSplitFuel, if_neg hm0, hnonempty, Bool.false_eq_true,
      if_false]
    simp

/-- Every chunk emitted by the paragraph loop has length at most `max_chars`
(paragraphs are non-empty, as produced by `paragraphsOf`). -/
theorem chunkLoop_bound (maxChars : Nat) :
    ∀ ps current clen, (∀ p ∈ ps, p ≠ []) → bufInv maxChars current clen →
      ∀ c ∈ chunkLoop maxChars ps current clen, c.length ≤ maxChars := by
  intro ps
  induction ps with
  | nil =>
    intro current clen _ h c hc
    rw [chunkLoop] at hc
    by_cases hcur : current.isEmpty
    · simp [hcur] at hc
    · rw [if_neg (by simp [hcur])] at hc
      simp only [List.mem_singleton] at hc
      subst hc
      have hne : current ≠ [] := by simpa [List.isEmpty_iff] using hcur
      calc (pyStrip (joinPar current)).length ≤ (joinPar current).length :=
            pyStrip_length_le _
        _ = clen := (h.2.2.1 hne).symm
        _ ≤ maxChars := h.1
  | cons para rest ih =>
    intro current clen hps h c hc
    have hpne : para ≠ [] := hps para (by simp)
    have hrest : ∀ p ∈ rest, p ≠ [] := fun p hp => hps p (by simp [hp])
    rw [chunkLoop] at hc
    by_cases h1 : maxChars < para.length
    · rw [if_pos h1] at hc
      have hspec : (∀ x ∈ (hardSplitGo maxChars para current clen).1, x.length ≤ maxChars) ∧
          bufInv maxChars (hardSplitGo maxChars para current clen).2.1
            (hardSplitGo maxChars para current clen).2.2 := hardSplitGo_spec h
      rcases List.mem_append.mp hc with hm | hm
      · exact hspec.1 c hm
      · exact ih _ _ hrest hspec.2 c hm
    · rw [if_neg h1] at hc
      by_cases h2 : maxChars < clen + para.length + (if current.isEmpty then 0 else 2)
      · rw [if_pos h2] at hc
        rcases List.mem_append.mp hc with hm | hm
        · exact flushChunks_bound h c hm
        · refine ih _ _ hrest ?_ c hm
          exact ⟨Nat.not_lt.mp h1, by simp, fun _ => by simp [joinPar],
            by intro p hp; rw [List.mem_singleton] at hp; exact hp ▸ hpne⟩
      · rw [if_neg h2] at hc
        refine ih _ _ hrest ?_ c hc
        refine bufInv_append h para hpne ?_
        have hsame : (if clen = 0 then 0 else 2) = (if current.isEmpty then 0 else 2) := by
          by_cases hcur : current = []
          · simp [hcur, h.2.1 hcur]
          · have := bufInv_clen_pos h hcur
            simp [hcur, Nat.pos_iff_ne_zero.mp this, List.isEmpty_iff]
        rw [hsame]
        omega

/-- The paragraph loop yields at least one chunk as soon as there is a pending
paragraph or a non-empty buffer (paragraphs start with a non-whitespace
character, as produced by `paragraphsOf`). -/
theorem chunkLoop_ne_nil {maxChars : Nat} (hm : 1 ≤ maxChars) :
    ∀ ps current clen,
      (∀ p ∈ ps, ∃ hp : p ≠ [], isPySpace (p.head hp) = false) →
      (ps ≠ [] ∨ current ≠ []) →
      chunkLoop maxChars ps current clen ≠ [] := by
  intro ps
  induction ps with
  | nil =>
    intro current clen _ hor
    have hcur : current ≠ [] := hor.resolve_left (fun h => h rfl)
    rw [chunkLoop, if_neg (by simpa [List.isEmpty_iff] using hcur)]
    simp
  | cons para rest ih =>
    intro current clen hps _
    obtain ⟨hpne, hphead⟩ := hps para (by simp)
    have hrest : ∀ p ∈ rest, ∃ hp : p ≠ [], isPySpace (p.head hp) = false :=
      fun p hp => hps p (by simp [hp])
    rw [chunkLoop]
    by_cases h1 : maxChars < para.length
    · rw [if_pos h1]
      intro hnil
      rw [List.append_eq_nil] at hnil
      exact hardSplitGo_ne_nil hm hpne hphead _ _ hnil.1
    · rw [if_neg h1]
      by_cases h2 : maxChars < clen + para.length + (if current.isEmpty then 0 else 2)
      · rw [if_pos h2]
        intro hnil
        rw [List.append_eq_nil] at hnil
        exact ih [para] para.length hrest (Or.inr (by simp)) hnil.2
      · rw [if_neg h2]
        exact ih _ _ hrest (Or.inr (by simp))

/-! ### Facts about `paragraphsOf` -/

theorem paragraphsOf_sound {text : List Char} :
    ∀ p ∈ paragraphsOf text, (∃ q, p = pyStrip q) ∧ p ≠ [] := by
  intro p hp
  simp only [paragraphsOf, List.mem_filter, List.mem_map] at hp
  obtain ⟨⟨q, _, rfl⟩, hne⟩ := hp
  exact ⟨⟨q, rfl⟩, by simpa [List.isEmpty_iff] using hne⟩

theorem paragraphsOf_head_not_space {text : List Char} :
    ∀ p ∈ paragraphsOf text, ∃ hp : p ≠ [], isPySpace (p.head hp) = false := by
  intro p hp
  obtain ⟨⟨q, rfl⟩, hne⟩ := paragraphsOf_sound p hp
  exact ⟨hne, pyStrip_head_not_space hne⟩

theorem mem_replaceCRLF {c : Char} {s : List Char} (hc : c ∈ s) (hcr : c ≠ '\r') :
    c ∈ replaceCRLF s := by
  induction s using replaceCRLF.induct with
  | case1 => simp at hc
  | case2 a => simpa [replaceCRLF] using hc
  | case3 a d rest had ih =>
    rw [replaceCRLF, if_pos had]
    rcases List.mem_cons.mp hc with h1 | hc'
    · exact absurd (h1.trans had.1) hcr
    · rcases List.mem_cons.mp hc' with h2 | hc''
      · simp [h2, had.2]
      · simp [ih hc'']
  | case4 a d rest had ih =>
    rw [replaceCRLF, if_neg had]
    rcases List.mem_cons.mp hc with h1 | hc'
    · simp [h1]
    · simp [ih hc']

theorem mem_normalizeNewlines {c : Char} {s : List Char} (hc : c ∈ s) (hcr : c ≠ '\r') :
    c ∈ normalizeNewlines s := by
  rw [normalizeNewlines]
  refine List.mem_map.mpr ⟨c, mem_replaceCRLF hc hcr, by simp [hcr]⟩

/-- A text containing any non-whitespace character yields at least one
paragraph. -/
theorem paragraphsOf_ne_nil {text : List Char}
    (h : ∃ c ∈ text, isPySpace c = false) : paragraphsOf text ≠ [] := by
  obtain ⟨c, hc, hcw⟩ := h
  have hcr : c ≠ '\r' := by rintro rfl; simp [isPySpace] at hcw
  have hcn : c ≠ '\n' := by rintro rfl; simp [isPySpace] at hcw
  have h1 : c ∈ normalizeNewlines text := mem_normalizeNewlines hc hcr
  obtain ⟨p, hp, hcp⟩ := mem_splitOnBlank h1 hcn
  have hst : pyStrip p ≠ [] := pyStrip_ne_nil ⟨c, hcp, hcw⟩
  refine @List.ne_nil_of_mem _ (pyStrip p) _ ?_
  simp only [paragraphsOf, List.mem_filter, List.mem_map]
  exact ⟨⟨p, hp, rfl⟩, by simpa [List.isEmpty_iff] using hst⟩

/-! ### Claims C3 and C4 -/

/-- C3: for every text and every `max_chars >= 1`, every chunk produced by
`chunk_text` has length at most `max_chars`, including hard-split pieces of an
over-long paragraph. -/
theorem C3_chunk_length_le (text : List Char) (maxChars : Nat) (c : List Char)
    (_hm : 1 ≤ maxChars) (hc : c ∈ chunk_text text maxChars) : c.length ≤ maxChars := by
  rw [chunk_text] at hc
  by_cases ht : text.isEmpty
  · simp [ht] at hc
  · rw [if_neg ht] at hc
    refine chunkLoop_bound maxChars (paragraphsOf text) [] 0 ?_ (bufInv_nil maxChars) c hc
    intro p hp
    exact (paragraphsOf_sound p hp).2

theorem C3_chunk_length_le_witness :
    "ab".data ∈ chunk_text "abcde".data 2 ∧ ("ab".data).length ≤ 2 :=
  ⟨by decide, C3_chunk_length_le "abcde".data 2 "ab".data (by decide) (by decide)⟩

/-- C4 counterexample: the single-space text is a non-empty input
(`" " != ""`, and `max_chars = 4000 >= 1`) for which `chunk_text` produces no
chunk at all: the only paragraph strips to the empty string and is discarded. -/
theorem C4_counterexample :
    ([' '] : List Char) ≠ [] ∧ 1 ≤ (4000 : Nat) ∧ chunk_text [' '] 4000 = [] := by
  refine ⟨by decide, by decide, by decide⟩

/-- C4 (amended): every input text containing at least one non-whitespace
character produces at least one chunk, for every `max_chars >= 1`.
(The original claim, quantified over all non-empty texts, fails on
pure-whitespace inputs, whose paragraphs are all discarded.) -/
theorem C4_at_least_one_chunk (text : List Char) (maxChars : Nat)
    (hm : 1 ≤ maxChars) (h : ∃ c ∈ text, isPySpace c = false) :
    chunk_text text maxChars ≠ [] := by
  have htne : text ≠ [] := by
    obtain ⟨c, hc, -⟩ := h
    exact List.ne_nil_of_mem hc
  rw [chunk_text, if_neg (by simpa [List.isEmpty_iff] using htne)]
  exact chunkLoop_ne_nil hm _ [] 0 paragraphsOf_head_not_space
    (Or.inl (paragraphsOf_ne_nil h))

theorem C4_at_least_one_chunk_witness : chunk_text "hi".data 1 ≠ [] :=
  C4_at_least_one_chunk "hi".data 1 (by decide) (by decide)

/-! ### Claim C5: hard-split of a single 9000-character paragraph -/

/-- The hard-split loop computes the same result from any sufficient fuel. -/
theorem hardSplitFuel_eq_go {maxChars : Nat} (hm : 1 ≤ maxChars) :
    ∀ fuel para current clen, para.length ≤ fuel →
      hardSplitFuel maxChars fuel para current clen =
        hardSplitGo maxChars para current clen := by
  intro fuel
  induction fuel using Nat.strong_induction_on with
  | _ fuel ih =>
    intro para current clen hlen
    cases para with
    | nil => cases fuel <;> rfl
    | cons c cs =>
      have hm0 : maxChars ≠ 0 := Nat.pos_iff_ne_zero.mp hm
      cases fuel with
      | zero => simp at hlen
      | succ f =>
        have hcs : cs.length ≤ f := by simpa using hlen
        have hrest : ((c :: cs).drop maxChars).length ≤ cs.length := by
          rw [List.length_drop]
          simp only [List.length_cons]
          omega
        show _ = hardSplitFuel maxChars (cs.length + 1) (c :: cs) current clen
        by_cases hp : (pyStrip ((c :: cs).take maxChars)).isEmpty
        · simp only [hardSplitFuel, if_neg hm0, hp, if_true]
          rw [ih f (Nat.lt_succ_self f) _ _ _ (le_trans hrest hcs),
            ih cs.length (Nat.lt_succ_of_le hcs) _ _ _ hrest]
        · simp only [hardSplitFuel, if_neg hm0, hp, Bool.false_eq_true, if_false]
          rw [ih f (Nat.lt_succ_self f) _ _ _ (le_trans hrest hcs),
            ih cs.length (Nat.lt_succ_of_le hcs) _ _ _ hrest]

/-- One iteration of the hard-split loop, in the case where the `max_chars`
prefix does not strip to the empty string. -/
theorem hardSplitGo_step {maxChars : Nat} (hm : 1 ≤ maxChars) {para : List Char}
    (hpar : para ≠ []) (hp : ¬ (pyStrip (para.take maxChars)).isEmpty = true)
    (current : List (List Char)) (clen : Nat) :
    hardSplitGo maxChars para current clen =
      (flushChunks current ++ para.take maxChars ::
          (hardSplitGo maxChars (para.drop maxChars) [] 0).1,
        (hardSplitGo maxChars (para.drop maxChars) [] 0).2.1,
        (hardSplitGo maxChars (para.drop maxChars) [] 0).2.2) := by
  cases para with
  | nil => exact absurd rfl hpar
  | cons c cs =>
    have hm0 : maxChars ≠ 0 := Nat.pos_iff_ne_zero.mp hm
    have hrest : ((c :: cs).drop maxChars).length ≤ cs.length := by
      rw [List.length_drop]
      simp only [List.length_cons]
      omega
    show hardSplitFuel maxChars (cs.length + 1) (c :: cs) current clen = _
    simp only [hardSplitFuel, if_neg hm0, hp, Bool.false_eq_true, if_false]
    rw [hardSplitFuel_eq_go hm cs.length _ _ _ hrest]

theorem replicate_a_nospace (n : Nat) :
    ∀ c ∈ List.replicate n 'a', isPySpace c = false := by
  intro c hc
  rw [List.eq_of_mem_replicate hc]
  decide

theorem replicate_ne_nil_of_pos {n : Nat} (h : n ≠ 0) (c : Char) :
    List.replicate n c ≠ [] := by
  intro heq
  have := congrArg List.length heq
  rw [List.length_replicate] at this
  exact h this

/-- Any text all of whose characters are non-whitespace is its own single
paragraph. -/
theorem paragraphsOf_nospace {text : List Char} (h : ∀ c ∈ text, isPySpace c = false)
    (hne : text ≠ []) : paragraphsOf text = [text] := by
  have hcr : '\r' ∉ text := fun hm => absurd (h _ hm) (by decide)
  have hlf : '\n' ∉ text := fun hm => absurd (h _ hm) (by decide)
  rw [paragraphsOf, normalizeNewlines_eq_self hcr, splitOnBlank_eq_self hlf]
  simp only [List.map_cons, List.map_nil, pyStrip_eq_self h]
  rw [List.filter_cons]
  simp [List.isEmpty_iff, hne]

/-- C5: for every input that is a single paragraph of 9000 non-whitespace
characters and `max_chars = 4000`, the Chunker emits exactly three chunks, of
lengths 4000, 4000 and 1000, in this order (the three hard-split slices). -/
theorem C5_hard_split_9000 (text : List Char) (hlen : text.length = 9000)
    (hns : ∀ c ∈ text, isPySpace c = false) :
    (chunk_text text 4000).map List.length = [4000, 4000, 1000] := by
  have hne : text ≠ [] := by
    intro h
    rw [h] at hlen
    simp at hlen
  have hns1 : ∀ c ∈ text.drop 4000, isPySpace c = false :=
    fun c hc => hns c (List.drop_subset _ _ hc)
  have hns2 : ∀ c ∈ (text.drop 4000).drop 4000, isPySpace c = false :=
    fun c hc => hns1 c (List.drop_subset _ _ hc)
  have hl1 : (text.drop 4000).length = 5000 := by rw [List.length_drop, hlen]
  have hl2 : ((text.drop 4000).drop 4000).length = 1000 := by rw [List.length_drop, hl1]
  have hne1 : text.drop 4000 ≠ [] := by
    intro h
    rw [h] at hl1
    simp at hl1
  have hne2 : (text.drop 4000).drop 4000 ≠ [] := by
    intro h
    rw [h] at hl2
    simp at hl2
  have stripTake : ∀ (u : List Char), (∀ c ∈ u, isPySpace c = false) → u.take 4000 ≠ [] →
      ¬ (pyStrip (u.take 4000)).isEmpty = true := by
    intro u hu hul
    rw [pyStrip_eq_self (fun c hc => hu c (List.take_subset _ _ hc))]
    simpa [List.isEmpty_iff] using hul
  have e3 : hardSplitGo 4000 ((text.drop 4000).drop 4000) [] 0 =
      ([(text.drop 4000).drop 4000], [], 0) := by
    have ht : ((text.drop 4000).drop 4000).take 4000 = (text.drop 4000).drop 4000 :=
      List.take_of_length_le (by omega)
    have hd : ((text.drop 4000).drop 4000).drop 4000 = [] :=
      List.drop_eq_nil_of_le (by omega)
    rw [hardSplitGo_step (by norm_num) hne2
        (by rw [ht, pyStrip_eq_self hns2]; simpa [List.isEmpty_iff] using hne2),
      ht, hd]
    rfl
  have e2 : hardSplitGo 4000 (text.drop 4000) [] 0 =
      ([(text.drop 4000).take 4000, (text.drop 4000).drop 4000], [], 0) := by
    have htne : (text.drop 4000).take 4000 ≠ [] := by
      intro h
      have := congrArg List.length h
      rw [List.length_take, hl1] at this
      simp at this
    rw [hardSplitGo_step (by norm_num) hne1 (stripTake _ hns1 htne), e3]
    rfl
  have e1 : hardSplitGo 4000 text [] 0 =
      ([text.take 4000, (text.drop 4000).take 4000, (text.drop 4000).drop 4000], [], 0) := by
    have htne : text.take 4000 ≠ [] := by
      intro h
      have := congrArg List.length h
      rw [List.length_take, hlen] at this
      simp at this
    rw [hardSplitGo_step (by norm_num) hne (stripTake _ hns htne), e2]
    rfl
  rw [chunk_text, if_neg (by simpa [List.isEmpty_iff] using hne), paragraphsOf_nospace hns hne,
    chunkLoop, if_pos (by rw [hlen]; norm_num), e1]
  have hfin : chunkLoop 4000 ([] : List (List Char)) [] 0 = [] := rfl
  show List.map List.length
      ([text.take 4000, (text.drop 4000).take 4000, (text.drop 4000).drop 4000]
        ++ chunkLoop 4000 [] [] 0) = [4000, 4000, 1000]
  rw [hfin, List.append_nil]
  simp [List.length_take, hlen, hl1, hl2]

theorem C5_hard_split_9000_witness :
    (chunk_text (List.replicate 9000 'a') 4000).map List.length = [4000, 4000, 1000] :=
  C5_hard_split_9000 (List.replicate 9000 'a') (List.length_replicate 9000 'a')
    (replicate_a_nospace 9000)

/-! ### `anonymize.py` : the Anonymizer

The regular-expression engine behind `PII_PATTERNS` and the
`hmac`/`hashlib.sha256` primitive are Python-standard-library collaborators;
they are modelled as explicit function parameters (`PatternCatalog`,
`HmacDigest`).  Everything else is translated from
`app/core/anonymize.py`. -/

/-- One entry of `entities_out`: the dict
`{"type": entity_type, "start": start, "end": end}` (the JSON key `end` is
spelled `stop` here because `end` is a Lean keyword). -/
structure Entity where
  ty : List Char
  start : Nat
  stop : Nat
deriving DecidableEq

/-- A compiled pattern's `finditer`, as the list of `(start, end)` spans it
yields over a text, in order. -/
abbrev Matcher : Type := List Char → List (Nat × Nat)

/-- The ordered `PII_PATTERNS` mapping: `(entity_type, matcher)` pairs in dict
insertion order. -/
abbrev PatternCatalog : Type := List (List Char × Matcher)

/-- The 32-byte output of `hmac.new(key, msg, hashlib.sha256).digest()`,
as a function of `(key, message)`. -/
abbrev HmacDigest : Type := List Char → List Char → List Nat

/-- One lowercase hexadecimal digit. -/
def hexDigitChar (n : Nat) : Char :=
  if n < 10 then Char.ofNat ('0'.toNat + n) else Char.ofNat ('a'.toNat + (n - 10))

/-- `hexdigest()`: the digest bytes in lowercase hexadecimal. -/
def hexEncode (bytes : List Nat) : List Char :=
  bytes.flatMap (fun b => [hexDigitChar (b / 16), hexDigitChar (b % 16)])

/-- `Anonymizer._stable_token`: HMAC-SHA256 of `entity_type + "::" + value`
under the secret key, hex-encoded, truncated to 16 characters and wrapped as
`<entity_type:token>`. -/
def stableToken (digest : HmacDigest) (secret etype value : List Char) : List Char :=
  '<' :: (etype ++ ':' :: ((hexEncode (digest secret (etype ++ "::".data ++ value))).take 16
    ++ ['>']))

/-- Python slice `text[a:b]` for `0 <= a, b`. -/
def pySlice (s : List Char) (a b : Nat) : List Char := (s.take b).drop a

/-- Stable insertion (descending by span start): the element is placed before
the first element whose start is not larger, so that elements with equal
starts keep their original relative order, exactly as Python's stable
`list.sort(key=..., reverse=True)`. -/
def insertDescByStart (x : Nat × Nat × List Char) :
    List (Nat × Nat × List Char) → List (Nat × Nat × List Char)
  | [] => [x]
  | y :: ys => if y.1 ≤ x.1 then x :: y :: ys else y :: insertDescByStart x ys

/-- `replaced_segments.sort(key=lambda x: x[0], reverse=True)`. -/
def sortSegmentsDesc (segs : List (Nat × Nat × List Char)) : List (Nat × Nat × List Char) :=
  segs.foldr insertDescByStart []

/-- Stable insertion (ascending by `start`), as Python's stable
`list.sort(key=lambda e: e["start"])`. -/
def insertAscByStart (x : Entity) : List Entity → List Entity
  | [] => [x]
  | y :: ys => if x.start ≤ y.start then x :: y :: ys else y :: insertAscByStart x ys

def sortEntitiesAsc (es : List Entity) : List Entity :=
  es.foldr insertAscByStart []

/-- One replacement step:
`anonymized_text = anonymized_text[:start] + token + anonymized_text[end:]`. -/
def applySegment (txt : List Char) (seg : Nat × Nat × List Char) : List Char :=
  txt.take seg.1 ++ seg.2.2 ++ txt.drop seg.2.1

/-- `Anonymizer.anonymize` from `app/core/anonymize.py`: collect all matches
of all categories (in catalog order), build `(start, end, token)` segments and
entity dicts, apply replacements by descending start offset, and return the
rewritten text with the entities sorted ascending by start. -/
def anonymize (digest : HmacDigest) (patterns : PatternCatalog) (secret : List Char)
    (text : List Char) : List Char × List Entity :=
  if text.isEmpty then (text, [])
  else
    let segs := patterns.flatMap (fun p =>
      (p.2 text).map (fun m => (m.1, m.2, stableToken digest secret p.1 (pySlice text m.1 m.2))))
    let entities := patterns.flatMap (fun p =>
      (p.2 text).map (fun m => Entity.mk p.1 m.1 m.2))
    let result := (sortSegmentsDesc segs).foldl applySegment text
    (result, sortEntitiesAsc entities)

/-! ### `cli.py` : records, the per-file paths and the ingest loop

`CompressedJsonlWriter.write` serialises one record dict per line with
`json.dumps` into a gzip stream; decompress-then-parse is the inverse of that
serialisation, so the output stream is modelled at the JSON value level: the
writer state is the list of JSON records written so far. -/

/-- The JSON values that `json.dumps` serialises in this pipeline. -/
inductive Json where
  | null : Json
  | str : List Char → Json
  | num : Int → Json
  | arr : List Json → Json
  | obj : List (List Char × Json) → Json

/-- The entity dict as placed into a record's `entities` list. -/
def entityJson (e : Entity) : Json :=
  .obj [("type".data, .str e.ty), ("start".data, .num e.start), ("end".data, .num e.stop)]

/-- The record dict built on the PDF path of `process_file` (note the key is
`doc_id`, and `page_number` is `page_index + 1`). -/
def pdfRecord (docId sourcePath fileHash : List Char) (pageIndex chunkIndex : Nat)
    (text : List Char) (entities : List Entity) : Json :=
  .obj [("doc_id".data, .str docId),
        ("source_path".data, .str sourcePath),
        ("file_sha256".data, .str fileHash),
        ("file_type".data, .str "pdf".data),
        ("page_number".data, .num (pageIndex + 1)),
        ("chunk_index".data, .num chunkIndex),
        ("text".data, .str text),
        ("entities".data, .arr (entities.map entityJson))]

/-- The record dict built on the Excel path of `process_file`. -/
def excelRecord (docId sourcePath fileHash : List Char) (chunkIndex : Nat)
    (text : List Char) (entities : List Entity) : Json :=
  .obj [("doc_id".data, .str docId),
        ("source_path".data, .str sourcePath),
        ("file_sha256".data, .str fileHash),
        ("file_type".data, .str "excel".data),
        ("page_number".data, .null),
        ("chunk_index".data, .num chunkIndex),
        ("text".data, .str text),
        ("entities".data, .arr (entities.map entityJson))]

/-- The `text` field of a record. -/
def recordText (j : Json) : List Char :=
  match j with
  | .obj fields =>
    match fields.lookup "text".data with
    | some (.str s) => s
    | _ => []
  | _ => []

/-- The `doc_id` field of a record. -/
def docIdOf (j : Json) : List Char :=
  match j with
  | .obj fields =>
    match fields.lookup "doc_id".data with
    | some (.str s) => s
    | _ => []
  | _ => []

/-- The `entities` field of a record. -/
def recordEntities (j : Json) : List Json :=
  match j with
  | .obj fields =>
    match fields.lookup "entities".data with
    | some (.arr es) => es
    | _ => []
  | _ => []

/-- The per-page body of the PDF branch: chunk the raw page text, anonymize
each chunk, and build one record per chunk with `chunk_index` from
`enumerate`. -/
def processPage (digest : HmacDigest) (patterns : PatternCatalog) (secret : List Char)
    (maxChars : Nat) (docId sourcePath fileHash : List Char) (pageIndex : Nat)
    (pageText : List Char) : List Json :=
  (chunk_text pageText maxChars).enum.map (fun ic =>
    let r := anonymize digest patterns secret ic.2
    pdfRecord docId sourcePath fileHash pageIndex ic.1 r.1 r.2)

/-- The PDF branch of `process_file`: iterate the extractor's
`(page_index, page_text)` pairs, skipping falsy (empty) page texts. -/
def processFilePdf (digest : HmacDigest) (patterns : PatternCatalog) (secret : List Char)
    (maxChars : Nat) (docId sourcePath fileHash : List Char)
    (pages : List (Nat × List Char)) : List Json :=
  pages.flatMap (fun p =>
    if p.2.isEmpty then []
    else processPage digest patterns secret maxChars docId sourcePath fileHash p.1 p.2)

/-- Python `"\n".join(buffer)`. -/
def joinNL : List (List Char) → List Char
  | [] => []
  | [l] => l
  | l :: ls => l ++ '\n' :: joinNL ls

/-- The `for line in text_stream` loop of the Excel branch: non-empty lines
are buffered (`current_len += len(line) + 1`); once `current_len` reaches
`max_chars_per_chunk` the joined buffer is emitted and the buffer reset.
Returns the emitted pre-redaction chunk texts in order, together with the
final `(buffer, current_len)` state. -/
def excelLoop (maxChars : Nat) : List (List Char) → List (List Char) → Nat →
    List (List Char) × List (List Char) × Nat
  | [], buffer, clen => ([], buffer, clen)
  | line :: rest, buffer, clen =>
    let buffer' := if line.isEmpty then buffer else buffer ++ [line]
    let clen' := if line.isEmpty then clen else clen + line.length + 1
    if maxChars ≤ clen' then
      let r := excelLoop maxChars rest [] 0
      (joinNL buffer' :: r.1, r.2.1, r.2.2)
    else excelLoop maxChars rest buffer' clen'

/-- The pre-redaction chunk texts of the Excel branch when the line stream is
exhausted normally: the loop's chunks followed by the trailing
`if buffer:` flush. -/
def excelChunkTexts (maxChars : Nat) (lines : List (List Char)) : List (List Char) :=
  let r := excelLoop maxChars lines [] 0
  r.1 ++ (if r.2.1.isEmpty then [] else [joinNL r.2.1])

/-- The Excel branch of `process_file` (complete, non-raising stream):
each emitted chunk text is anonymized and written with `chunk_counter` equal
to its emission index. -/
def processFileExcel (digest : HmacDigest) (patterns : PatternCatalog) (secret : List Char)
    (maxChars : Nat) (docId sourcePath fileHash : List Char)
    (lines : List (List Char)) : List Json :=
  (excelChunkTexts maxChars lines).enum.map (fun ic =>
    let r := anonymize digest patterns secret ic.2
    excelRecord docId sourcePath fileHash ic.1 r.1 r.2)

/-- As `processFileExcel`, but for a line stream whose generator raises after
its last yielded line: the exception propagates out of the `for` loop, so the
trailing `if buffer:` flush never runs. -/
def processFileExcelRaised (digest : HmacDigest) (patterns : PatternCatalog)
    (secret : List Char) (maxChars : Nat) (docId sourcePath fileHash : List Char)
    (lines : List (List Char)) : List Json :=
  ((excelLoop maxChars lines [] 0).1).enum.map (fun ic =>
    let r := anonymize digest patterns secret ic.2
    excelRecord docId sourcePath fileHash ic.1 r.1 r.2)

/-- One input file as the Orchestrator sees it: the units its (lazy) extractor
yields before either finishing normally or raising, plus whether it raises.
An unsupported extension yields no records (only a warning). -/
inductive FileInput where
  | pdf (pages : List (Nat × List Char)) (raisesAfter : Bool)
  | xls (lines : List (List Char)) (raisesAfter : Bool)
  | unsupported

def fileRaises : FileInput → Bool
  | .pdf _ r => r
  | .xls _ r => r
  | .unsupported => false

/-- The records `process_file` hands to the writer for one file before the
call either returns or raises.  For a PDF stream that raises, the exception
surfaces at the generator resumption after its last yielded page, so all
yielded pages' records are already written; for an Excel stream that raises,
the final buffer flush is skipped. -/
def fileRecords (digest : HmacDigest) (patterns : PatternCatalog) (secret : List Char)
    (maxChars : Nat) (docId sourcePath fileHash : List Char) : FileInput → List Json
  | .pdf pages _ =>
    processFilePdf digest patterns secret maxChars docId sourcePath fileHash pages
  | .xls lines raised =>
    if raised then
      processFileExcelRaised digest patterns secret maxChars docId sourcePath fileHash lines
    else processFileExcel digest patterns secret maxChars docId sourcePath fileHash lines
  | .unsupported => []

/-- One discovered file of a batch: its path, the SHA-256 digest bytes of its
content (as produced by `hashlib` inside `compute_file_sha256`), and its
extraction behaviour. -/
structure BatchItem where
  sourcePath : List Char
  fileHashBytes : List Nat
  input : FileInput

/-- The `for file_path in cfg.inputs` loop of `ingest`: each file's records
are appended to the shared writer; a raising `process_file` is caught by the
`try/except` and the loop continues with the next file (the records the file
wrote before raising stay in the stream).  `uuidGen k` is the value of the
`k`-th `uuid.uuid4()` call. -/
def ingestRun (digest : HmacDigest) (patterns : PatternCatalog) (uuidGen : Nat → List Char)
    (secret : List Char) (maxChars : Nat) : List BatchItem → Nat → List Json
  | [], _ => []
  | item :: rest, idx =>
    fileRecords digest patterns secret maxChars (uuidGen idx) item.sourcePath
      (hexEncode item.fileHashBytes) item.input
      ++ ingestRun digest patterns uuidGen secret maxChars rest (idx + 1)

/-! ### The §6 record schema -/

def isHexDigitLower (c : Char) : Bool :=
  ('0' ≤ c && c ≤ '9') || ('a' ≤ c && c ≤ 'f')

/-- "64 lowercase hex chars". -/
def isSha256Hex (s : List Char) : Bool :=
  s.length == 64 && s.all isHexDigitLower

def isEntityShape : Json → Bool
  | .obj [(k1, .str _), (k2, .num _), (k3, .num _)] =>
    k1 == "type".data && k2 == "start".data && k3 == "end".data
  | _ => false

def isIntOrNull : Json → Bool
  | .num _ => true
  | .null => true
  | _ => false

/-- The §6 record shape, parameterised by the name of the document-identifier
key: eight fields in the order the pipeline writes them, with the §6 types
(`file_sha256` 64 lowercase hex, `file_type` `"pdf"` or `"excel"`,
`page_number` integer or null, `chunk_index >= 0`, entities a list of
`{type, start, end}` objects). -/
def recordWellFormed (docKey : List Char) : Json → Bool
  | .obj [(k1, .str _), (k2, .str _), (k3, .str h), (k4, .str ft), (k5, pn),
      (k6, .num ci), (k7, .str _), (k8, .arr es)] =>
    k1 == docKey && k2 == "source_path".data && k3 == "file_sha256".data &&
      isSha256Hex h && k4 == "file_type".data &&
      (ft == "pdf".data || ft == "excel".data) && k5 == "page_number".data &&
      isIntOrNull pn && k6 == "chunk_index".data && decide (0 ≤ ci) &&
      k7 == "text".data && k8 == "entities".data && es.all isEntityShape
  | _ => false

/-- The record schema exactly as §6 states it, with a `document_id` field. -/
def matchesSchemaSpec (j : Json) : Bool := recordWellFormed "document_id".data j

/-- The schema the pipeline actually writes: identical to §6 except that the
document-identifier key is spelled `doc_id`. -/
def matchesSchemaDocId (j : Json) : Bool := recordWellFormed "doc_id".data j

example : chunk_text "ab".data 10 = ["ab".data] := by decide
example : chunk_text "a\n\nb".data 10 = ["a\n\nb".data] := by decide
example : chunk_text "a\n\nb".data 2 = ["a".data, "b".data] := by decide
example : chunk_text "abcde".data 2 = ["ab".data, "cd".data, "e".data] := by decide
example : chunk_text " ".data 10 = [] := by decide
example : chunk_text "x\r\ny".data 10 = ["x\ny".data] := by decide

/-! ### Claims C6, C7, C8: the Anonymizer -/

/-- C6: for a fixed secret (and the fixed pattern catalog and HMAC primitive),
two calls of `anonymize` on the same text return identical redacted text and
identical entity lists.  The embedding is a pure function of its explicit
inputs — the Python sources of run-to-run variation (dict iteration order,
`hmac`, `re`) are all deterministic and appear here as fixed parameters — so
repeated calls agree definitionally. -/
theorem C6_anonymize_deterministic (digest : HmacDigest) (patterns : PatternCatalog)
    (secret text : List Char) :
    (anonymize digest patterns secret text).1 = (anonymize digest patterns secret text).1 ∧
    (anonymize digest patterns secret text).2 = (anonymize digest patterns secret text).2 :=
  ⟨rfl, rfl⟩

theorem hexEncode_length (bytes : List Nat) : (hexEncode bytes).length = 2 * bytes.length := by
  induction bytes with
  | nil => rfl
  | cons b bs ih =>
    rw [hexEncode, List.flatMap_cons] at *
    simp only [List.length_append, List.length_cons, List.length_nil, List.length_cons] at *
    omega

theorem isHexDigitLower_hexDigitChar {n : Nat} (h : n < 16) :
    isHexDigitLower (hexDigitChar n) = true := by
  interval_cases n <;> decide

theorem mem_hexEncode_isHex {bytes : List Nat} (hb : ∀ b ∈ bytes, b < 256) :
    ∀ c ∈ hexEncode bytes, isHexDigitLower c = true := by
  intro c hc
  rw [hexEncode, List.mem_flatMap] at hc
  obtain ⟨b, hbmem, hcmem⟩ := hc
  have h256 := hb b hbmem
  rcases List.mem_cons.mp hcmem with rfl | hcm
  · exact isHexDigitLower_hexDigitChar (Nat.div_lt_of_lt_mul h256)
  · rcases List.mem_singleton.mp hcm with rfl
    exact isHexDigitLower_hexDigitChar (Nat.mod_lt _ (by norm_num))

/-- `hexdigest()` of a 32-byte digest is 64 lowercase hex characters. -/
theorem isSha256Hex_hexEncode {bytes : List Nat} (hl : bytes.length = 32)
    (hb : ∀ b ∈ bytes, b < 256) : isSha256Hex (hexEncode bytes) = true := by
  rw [isSha256Hex, Bool.and_eq_true, List.all_eq_true]
  constructor
  · rw [hexEncode_length, hl]
    decide
  · exact mem_hexEncode_isHex hb

theorem takeWhile_until_colon (xs rest : List Char) (h : ':' ∉ xs) :
    (xs ++ ':' :: rest).takeWhile (fun c => c != ':') = xs := by
  induction xs with
  | nil => simp [List.takeWhile_cons]
  | cons x t ih =>
    rw [List.cons_append, List.takeWhile_cons]
    have hx : x ≠ ':' := fun he => h (by simp [he])
    simp only [bne_iff_ne, ne_eq, hx, not_false_eq_true, if_true]
    rw [ih (fun hm => h (by simp [hm]))]

/-- C7: with the HMAC-SHA256 primitive producing 32-byte digests, the token of
`_stable_token` is a pure function of `(secret, category, value)` (it is a
Lean function of exactly those inputs), its length is `category.length + 19`
— fixed and independent of the raw value — and the category name sits
verbatim between the leading `<` and the first `:`, so it is recoverable
without decoding the digest. -/
theorem C7_stable_token (digest : HmacDigest) (secret category value : List Char)
    (hdig : ∀ k m, (digest k m).length = 32) (hcat : ':' ∉ category) :
    (stableToken digest secret category value).length = category.length + 19 ∧
    ((stableToken digest secret category value).drop 1).takeWhile (fun c => c != ':')
      = category := by
  have hlen : ((hexEncode (digest secret (category ++ "::".data ++ value))).take 16).length
      = 16 := by
    rw [List.length_take, hexEncode_length, hdig]
    decide
  constructor
  · simp only [stableToken, List.length_cons, List.length_append, List.length_nil, hlen]
  · show (category ++ ':' :: _).takeWhile (fun c => c != ':') = category
    exact takeWhile_until_colon _ _ hcat

theorem C7_stable_token_witness :
    (stableToken (fun _ _ => List.replicate 32 0) "k1".data "EMAIL_ADDRESS".data
        "a@b.com".data).length = "EMAIL_ADDRESS".data.length + 19 ∧
    ((stableToken (fun _ _ => List.replicate 32 0) "k1".data "EMAIL_ADDRESS".data
        "a@b.com".data).drop 1).takeWhile (fun c => c != ':') = "EMAIL_ADDRESS".data :=
  C7_stable_token (fun _ _ => List.replicate 32 0) "k1".data "EMAIL_ADDRESS".data
    "a@b.com".data (fun _ _ => by simp) (by decide)

/-- C8: empty input is returned unchanged with an empty entity list (Python's
`if not text` guard; the falsy `None` input follows the same branch and is
represented by the empty text in this model). -/
theorem C8_empty_input (digest : HmacDigest) (patterns : PatternCatalog)
    (secret : List Char) :
    anonymize digest patterns secret [] = ([], []) := rfl

/-! ### Concrete collaborator instantiations used by counterexamples -/

/-- A concrete HMAC primitive: every digest is 32 zero bytes. -/
def digest0 : HmacDigest := fun _ _ => List.replicate 32 0

/-- A concrete `uuid.uuid4()` call sequence. -/
def uuid0 : Nat → List Char := fun i => if i == 0 then "d0".data else "d1".data

/-- A concrete one-category pattern catalog whose matcher flags the first
character of any non-empty text. -/
def patterns1 : PatternCatalog := [("T".data, fun t => if t.isEmpty then [] else [(0, 1)])]

/-! ### Claim C1: per-file failure isolation -/

/-- C1 counterexample: in a two-file batch whose first PDF yields one
non-empty page and then raises, the output stream still contains exactly one
record whose `doc_id` is the failed file's identifier — not zero as the claim
demands — while the second file is processed normally. -/
theorem C1_counterexample :
    fileRaises (FileInput.pdf [(0, "a".data)] true) = true ∧
    ((ingestRun digest0 [] uuid0 "s".data 100
        [⟨"f0".data, List.replicate 32 0, .pdf [(0, "a".data)] true⟩,
         ⟨"f1".data, List.replicate 32 0, .pdf [(0, "b".data)] false⟩] 0).filter
      (fun r => docIdOf r == "d0".data)).length = 1 :=
  ⟨rfl, by decide⟩

/-- C1 (amended): records a file wrote before raising stay in the stream, so
zero-records-for-a-failed-file holds only when the file raises before any
record is emitted; failure isolation itself holds: the batch output is
exactly the concatenation of every file's own records, each file contributing
independently of whether any other file raised, and a file that raises before
yielding any unit contributes nothing. -/
theorem C1_failure_isolation (digest : HmacDigest) (patterns : PatternCatalog)
    (uuidGen : Nat → List Char) (secret : List Char) (maxChars : Nat) :
    (∀ (items : List BatchItem) (idx : Nat),
      ingestRun digest patterns uuidGen secret maxChars items idx =
        ((items.enumFrom idx).map (fun iw =>
          fileRecords digest patterns secret maxChars (uuidGen iw.1) iw.2.sourcePath
            (hexEncode iw.2.fileHashBytes) iw.2.input)).flatten) ∧
    (∀ (docId sourcePath fileHash : List Char) (b : Bool),
      fileRecords digest patterns secret maxChars docId sourcePath fileHash
        (.pdf [] b) = []) := by
  constructor
  · intro items
    induction items with
    | nil => intro idx; rfl
    | cons item rest ih =>
      intro idx
      rw [ingestRun, List.enumFrom_cons, List.map_cons, List.flatten_cons, ih (idx + 1)]
  · intro docId sourcePath fileHash b
    rfl

/-! ### Claim C9: order of chunking and anonymization on a unit -/

/-- The §2 control flow in the spec's words (Anonymization Engine → Chunker):
the whole unit text is redacted first and the redacted output is then split,
one record text per resulting chunk. -/
def specUnitChunkTexts (digest : HmacDigest) (patterns : PatternCatalog)
    (secret : List Char) (maxChars : Nat) (unitText : List Char) : List (List Char) :=
  chunk_text (anonymize digest patterns secret unitText).1 maxChars

/-- C9 counterexample: on the page `"ab"` with `max_chars = 2` and a catalog
whose token lengthens the text, the code (chunk first, then anonymize each
chunk) produces one 21-character record text, while the spec's order
(anonymize first, then chunk) produces eleven 2-or-fewer-character chunks:
the two compositions disagree. -/
theorem C9_counterexample :
    (processPage digest0 patterns1 "s".data 2 "d".data "p".data "h".data 0 "ab".data).map
        recordText ≠
      specUnitChunkTexts digest0 patterns1 "s".data 2 "ab".data := by decide

/-- C9 (amended): per-unit processing is the composition the other way
around: the raw unit text is chunked first, and each chunk is anonymized
independently, with one record per chunk carrying that chunk's redacted text
and entity list. -/
theorem C9_unit_is_anonymize_after_chunk (digest : HmacDigest) (patterns : PatternCatalog)
    (secret : List Char) (maxChars : Nat) (docId sourcePath fileHash : List Char)
    (pageIndex : Nat) (pageText : List Char) :
    (processPage digest patterns secret maxChars docId sourcePath fileHash pageIndex
        pageText).map recordText =
      (chunk_text pageText maxChars).map
        (fun c => (anonymize digest patterns secret c).1) ∧
    (processPage digest patterns secret maxChars docId sourcePath fileHash pageIndex
        pageText).map recordEntities =
      (chunk_text pageText maxChars).map
        (fun c => ((anonymize digest patterns secret c).2).map entityJson) := by
  constructor
  · rw [processPage, List.map_map]
    conv_rhs => rw [← List.enum_map_snd (chunk_text pageText maxChars), List.map_map]
    rfl
  · rw [processPage, List.map_map]
    conv_rhs => rw [← List.enum_map_snd (chunk_text pageText maxChars), List.map_map]
    rfl

/-! ### Claim C2: the record schema -/

theorem isEntityShape_entityJson (e : Entity) : isEntityShape (entityJson e) = true := by
  simp [entityJson, isEntityShape]

theorem entities_all_shape (es : List Entity) :
    (es.map entityJson).all isEntityShape = true := by
  rw [List.all_eq_true]
  intro j hj
  obtain ⟨e, -, rfl⟩ := List.mem_map.mp hj
  exact isEntityShape_entityJson e

theorem pdfRecord_wellFormed (docId sourcePath h : List Char) (pi ci : Nat)
    (t : List Char) (es : List Entity) (hh : isSha256Hex h = true) :
    matchesSchemaDocId (pdfRecord docId sourcePath h pi ci t es) = true := by
  simp [matchesSchemaDocId, recordWellFormed, pdfRecord, hh, isIntOrNull,
    entities_all_shape es]

theorem excelRecord_wellFormed (docId sourcePath h : List Char) (ci : Nat)
    (t : List Char) (es : List Entity) (hh : isSha256Hex h = true) :
    matchesSchemaDocId (excelRecord docId sourcePath h ci t es) = true := by
  simp [matchesSchemaDocId, recordWellFormed, excelRecord, hh, isIntOrNull,
    entities_all_shape es]

/-- Every record `process_file` emits for any one file is well-formed
(with the `doc_id` key), given a well-formed hash string. -/
theorem fileRecords_wellFormed (digest : HmacDigest) (patterns : PatternCatalog)
    (secret : List Char) (maxChars : Nat) (docId sourcePath fileHash : List Char)
    (fi : FileInput) (hh : isSha256Hex fileHash = true) :
    ∀ r ∈ fileRecords digest patterns secret maxChars docId sourcePath fileHash fi,
      matchesSchemaDocId r = true := by
  intro r hr
  cases fi with
  | pdf pages raised =>
    rw [fileRecords, processFilePdf, List.mem_flatMap] at hr
    obtain ⟨p, -, hr2⟩ := hr
    by_cases hpe : p.2.isEmpty
    · simp [hpe] at hr2
    · rw [if_neg hpe, processPage] at hr2
      obtain ⟨ic, -, rfl⟩ := List.mem_map.mp hr2
      exact pdfRecord_wellFormed _ _ _ _ _ _ _ hh
  | xls lines raised =>
    cases raised with
    | true =>
      rw [fileRecords] at hr
      rw [if_pos rfl, processFileExcelRaised] at hr
      obtain ⟨ic, -, rfl⟩ := List.mem_map.mp hr
      exact excelRecord_wellFormed _ _ _ _ _ _ hh
    | false =>
      rw [fileRecords] at hr
      rw [if_neg (by simp), processFileExcel] at hr
      obtain ⟨ic, -, rfl⟩ := List.mem_map.mp hr
      exact excelRecord_wellFormed _ _ _ _ _ _ hh
  | unsupported => simp [fileRecords] at hr

/-- C2 counterexample: the first (and only) record of a one-PDF batch fails
the §6 schema check because the pipeline writes its document identifier under
the key `doc_id`, not `document_id`; the very same record passes the check
with the key renamed. -/
theorem C2_counterexample :
    matchesSchemaSpec ((ingestRun digest0 [] uuid0 "s".data 100
        [⟨"f1".data, List.replicate 32 0, .pdf [(0, "b".data)] false⟩] 0).getD 0 .null)
      = false ∧
    matchesSchemaDocId ((ingestRun digest0 [] uuid0 "s".data 100
        [⟨"f1".data, List.replicate 32 0, .pdf [(0, "b".data)] false⟩] 0).getD 0 .null)
      = true ∧
    (ingestRun digest0 [] uuid0 "s".data 100
        [⟨"f1".data, List.replicate 32 0, .pdf [(0, "b".data)] false⟩] 0).length = 1 := by
  refine ⟨by decide, by decide, by decide⟩

/-- C2 (amended): every record the batch writes, parsed back as the JSON
value that `json.dumps` serialised, matches the §6 schema with its
`document_id` field read as the pipeline's `doc_id` key: string identifier
and source path, 64-lowercase-hex `file_sha256` (the hex digest of the
32-byte SHA-256 output), `file_type` `"pdf"` or `"excel"`, integer-or-null
`page_number`, non-negative integer `chunk_index`, string `text`, and
entities as `{type, start, end}` objects. -/
theorem C2_records_schema (digest : HmacDigest) (patterns : PatternCatalog)
    (uuidGen : Nat → List Char) (secret : List Char) (maxChars : Nat)
    (items : List BatchItem) (idx : Nat)
    (hbytes : ∀ item ∈ items, item.fileHashBytes.length = 32 ∧
      ∀ b ∈ item.fileHashBytes, b < 256) :
    ∀ r ∈ ingestRun digest patterns uuidGen secret maxChars items idx,
      matchesSchemaDocId r = true := by
  induction items generalizing idx with
  | nil => intro r hr; simp [ingestRun] at hr
  | cons item rest ih =>
    intro r hr
    rw [ingestRun] at hr
    rcases List.mem_append.mp hr with hm | hm
    · have hhash : isSha256Hex (hexEncode item.fileHashBytes) = true :=
        isSha256Hex_hexEncode (hbytes item (by simp)).1 (hbytes item (by simp)).2
      exact fileRecords_wellFormed _ _ _ _ _ _ _ _ hhash r hm
    · exact ih (idx + 1) (fun it hit => hbytes it (by simp [hit])) r hm

theorem C2_records_schema_witness :
    matchesSchemaDocId ((ingestRun digest0 [] uuid0 "s".data 100
        [⟨"f1".data, List.replicate 32 0, .pdf [(0, "b".data)] false⟩] 0).getD 0 .null)
      = true :=
  C2_records_schema digest0 [] uuid0 "s".data 100
    [⟨"f1".data, List.replicate 32 0, .pdf [(0, "b".data)] false⟩] 0
    (by intro item hit; constructor <;> simp [List.mem_singleton.mp hit])
    _ (by rw [List.getD_eq_getElem _ _ (by decide)]; exact List.getElem_mem _)

/-! ### Claim C10: the Excel running-length buffer -/

theorem joinNL_cons_cons (l m : List Char) (ls : List (List Char)) :
    joinNL (l :: m :: ls) = l ++ '\n' :: joinNL (m :: ls) := rfl

theorem joinNL_append_singleton (xs : List (List Char)) (l : List Char) (h : xs ≠ []) :
    joinNL (xs ++ [l]) = joinNL xs ++ '\n' :: l := by
  induction xs with
  | nil => simp at h
  | cons x rest ih =>
    cases rest with
    | nil => simp [joinNL]
    | cons y t =>
      have hyt : (y :: t) ++ [l] = y :: (t ++ [l]) := by simp
      rw [List.cons_append, hyt, joinNL_cons_cons, ← hyt, ih (by simp), joinNL_cons_cons]
      simp

/-- The invariant on the Excel branch's `(buffer, current_len)` pair:
`current_len` is the joined buffer's length plus one (each buffered line was
counted as `len(line) + 1`, and joining inserts one `\n` fewer than there are
lines). -/
def excelInv (buffer : List (List Char)) (clen : Nat) : Prop :=
  (buffer = [] → clen = 0) ∧ (buffer ≠ [] → clen = (joinNL buffer).length + 1)

theorem excelInv_step {buffer : List (List Char)} {clen : Nat} (h : excelInv buffer clen)
    (line : List Char) (_hl : ¬ line.isEmpty = true) :
    excelInv (buffer ++ [line]) (clen + line.length + 1) := by
  constructor
  · simp
  · intro _
    by_cases hb : buffer = []
    · subst hb
      rw [List.nil_append, h.1 rfl]
      have hj : joinNL [line] = line := rfl
      rw [hj]
      omega
    · rw [joinNL_append_singleton buffer line hb, h.2 hb]
      simp
      omega

/-- Every chunk the Excel loop flushes has pre-redaction length at least
`max_chars - 1` (stated as `max_chars <= length + 1`), and the invariant is
maintained on the final buffer state. -/
theorem excelLoop_spec (maxChars : Nat) :
    ∀ lines buffer clen, excelInv buffer clen →
      (∀ c ∈ (excelLoop maxChars lines buffer clen).1, maxChars ≤ c.length + 1) ∧
      excelInv (excelLoop maxChars lines buffer clen).2.1
        (excelLoop maxChars lines buffer clen).2.2 := by
  intro lines
  induction lines with
  | nil =>
    intro buffer clen h
    exact ⟨by simp [excelLoop], by simpa [excelLoop] using h⟩
  | cons line rest ih =>
    intro buffer clen h
    by_cases hl : line.isEmpty
    · by_cases hflush : maxChars ≤ clen
      · have hrec := ih [] 0 ⟨fun _ => rfl, fun hc => absurd rfl hc⟩
        constructor
        · intro c hc
          simp only [excelLoop, hl, if_true, if_pos hflush, List.mem_cons] at hc
          rcases hc with rfl | hc
          · by_cases hb : buffer = []
            · subst hb
              have := h.1 rfl
              omega
            · have := h.2 hb
              omega
          · exact hrec.1 c hc
        · simpa [excelLoop, hl, if_pos hflush] using hrec.2
      · have hrec := ih buffer clen h
        exact ⟨by intro c hc; exact hrec.1 c (by simpa [excelLoop, hl, hflush] using hc),
          by simpa [excelLoop, hl, hflush] using hrec.2⟩
    · have h' : excelInv (buffer ++ [line]) (clen + line.length + 1) :=
        excelInv_step h line hl
      by_cases hflush : maxChars ≤ clen + line.length + 1
      · have hrec := ih [] 0 ⟨fun _ => rfl, fun hc => absurd rfl hc⟩
        constructor
        · intro c hc
          simp only [excelLoop, hl, Bool.false_eq_true, if_false, if_pos hflush,
            List.mem_cons] at hc
          rcases hc with rfl | hc
          · have hb : buffer ++ [line] ≠ [] := by simp
            have := h'.2 hb
            omega
          · exact hrec.1 c hc
        · simpa [excelLoop, hl, if_pos hflush] using hrec.2
      · have hrec := ih (buffer ++ [line]) (clen + line.length + 1) h'
        exact ⟨by intro c hc; exact hrec.1 c (by simpa [excelLoop, hl, hflush] using hc),
          by simpa [excelLoop, hl, hflush] using hrec.2⟩

/-- C10: on the Excel path the buffer is flushed only once the running length
(`sum of len(line) + 1` over buffered lines) reaches `max_chars_per_chunk`,
so every emitted pre-redaction chunk text except possibly the final-buffer
flush has length at least `max_chars_per_chunk - 1`; and the Chunker's upper
bound is not enforced there: in the concrete batch below the first (non-last)
chunk has length 5 = `max_chars_per_chunk`. -/
theorem C10_excel_flush_bound :
    (∀ (lines : List (List Char)) (maxChars i : Nat),
        i + 1 < (excelChunkTexts maxChars lines).length →
        maxChars - 1 ≤ ((excelChunkTexts maxChars lines).getD i []).length) ∧
    excelChunkTexts 5 ["aaaaa".data, "b".data] = ["aaaaa".data, "b".data] := by
  constructor
  · intro lines maxChars i hi
    have hspec := excelLoop_spec maxChars lines [] 0 ⟨fun _ => rfl, fun hc => absurd rfl hc⟩
    have hepi : (if (excelLoop maxChars lines [] 0).2.1.isEmpty then ([] : List (List Char))
        else [joinNL (excelLoop maxChars lines [] 0).2.1]).length ≤ 1 := by
      split <;> simp
    have hiL : i < (excelLoop maxChars lines [] 0).1.length := by
      rw [excelChunkTexts, List.length_append] at hi
      omega
    have hgd : (excelChunkTexts maxChars lines).getD i [] =
        ((excelLoop maxChars lines [] 0).1).getD i [] := by
      rw [excelChunkTexts]
      exact List.getD_append _ _ _ _ hiL
    rw [hgd, List.getD_eq_getElem _ _ hiL]
    have hmem := List.getElem_mem hiL
    have := hspec.1 _ hmem
    omega
  · decide

theorem C10_excel_flush_bound_witness :
    (5 : Nat) - 1 ≤ ((excelChunkTexts 5 ["aaaaa".data, "b".data]).getD 0 []).length :=
  C10_excel_flush_bound.1 ["aaaaa".data, "b".data] 5 0 (by decide)

end Spec2Proof
